import Mathlib

/-!
Shallow embedding of the version-parsing and latest-version-tracking core
(`src/lib.rs`): the `MainVersion` / `PreVersion` / `Version` data types,
`Version::parse` and its `Display` formatting, the `LatestVersions` tracker
(`push`, `iter_ids`) and `CrateId::parse`.

Rust strings are modelled as `List Char`; the Rust code only splits on the
ASCII characters `.`, `-`, `+` (which occupy a single byte and are always
char boundaries in UTF-8), so char-level splitting coincides with the
byte-level splitting done by the source.  `u16` values are modelled as `Nat`
with the bound `< 65536` enforced at parse time exactly where the source's
checked arithmetic enforces it; no other arithmetic is performed on them.
The generic string parameter `T` of the Rust types (owned `String` vs
borrowed `&str`) is irrelevant to behaviour and is instantiated at
`List Char` throughout.
-/

/-- The main part of a version number (`struct MainVersion`, fields
`major`, `minor`, `patch`, each a `u16`). -/
structure MainVersion where
  major : Nat
  minor : Nat
  patch : Nat
deriving DecidableEq, Repr

/-- Comparison of two naturals as an `Ordering`, mirroring `Ord` on `u16`. -/
def natCmp (a b : Nat) : Ordering :=
  if a < b then .lt else if b < a then .gt else .eq

/-- The derived `Ord` on `MainVersion`: lexicographic on
(`major`, `minor`, `patch`), the field declaration order. -/
def MainVersion.cmp (a b : MainVersion) : Ordering :=
  match natCmp a.major b.major with
  | .eq =>
    match natCmp a.minor b.minor with
    | .eq => natCmp a.patch b.patch
    | o => o
  | o => o

/-- The derived `>=` on `MainVersion` (`cmp != Less`), used by `push`. -/
def MainVersion.geb (a b : MainVersion) : Bool :=
  match MainVersion.cmp a b with
  | .lt => false
  | _ => true

/-- `a ≤ b` in the total lexicographic order on `MainVersion`. -/
def MainVersion.le (a b : MainVersion) : Prop :=
  MainVersion.cmp a b ≠ .gt

/-- `a < b` in the total lexicographic order on `MainVersion`. -/
def MainVersion.lt (a b : MainVersion) : Prop :=
  MainVersion.cmp a b = .lt

instance (a b : MainVersion) : Decidable (MainVersion.le a b) := by
  unfold MainVersion.le; infer_instance

instance (a b : MainVersion) : Decidable (MainVersion.lt a b) := by
  unfold MainVersion.lt; infer_instance

/-- The prerelease part of a version number (`struct PreVersion`): a stream
name and a `u16` sequence number (the source calls the number `version`). -/
structure PreVersion where
  stream : List Char
  version : Nat
deriving DecidableEq, Repr

/-- A version number with an optional pre-release part and optional build
metadata (`struct Version`). -/
structure Version where
  version : MainVersion
  pre : Option PreVersion
  build : Option (List Char)
deriving DecidableEq, Repr

/-- `char::to_digit(10)`: the numeric value of an ASCII decimal digit. -/
def charDigit? (c : Char) : Option Nat :=
  if c = '0' then some 0
  else if c = '1' then some 1
  else if c = '2' then some 2
  else if c = '3' then some 3
  else if c = '4' then some 4
  else if c = '5' then some 5
  else if c = '6' then some 6
  else if c = '7' then some 7
  else if c = '8' then some 8
  else if c = '9' then some 9
  else none

/-- The digit-accumulation loop of `u16::from_str` (`from_str_radix` with
radix 10): consume digits left to right with checked arithmetic; a non-digit
character or a value exceeding `u16::MAX` is an error (`none`). -/
def parseDigits (acc : Nat) : List Char → Option Nat
  | [] => some acc
  | c :: cs =>
    match charDigit? c with
    | none => none
    | some d =>
      if acc * 10 + d < 65536 then parseDigits (acc * 10 + d) cs else none

/-- `str::parse::<u16>()`: an optional leading `+` sign is stripped (a lone
sign, an empty string, any other non-digit character, and overflow all
fail). A leading `-` is not stripped for unsigned types and then fails as a
non-digit. -/
def parseU16 (s : List Char) : Option Nat :=
  let t := match s with
    | c :: r => if c = '+' then r else s
    | [] => s
  if t = [] then none else parseDigits 0 t

/-- `str::split_once(c)`: split at the first occurrence of `c`, neither side
containing the delimiter occurrence; `none` when `c` does not occur. -/
def splitOnce (c : Char) : List Char → Option (List Char × List Char)
  | [] => none
  | x :: xs =>
    if x = c then some ([], xs)
    else
      match splitOnce c xs with
      | some (l, r) => some (x :: l, r)
      | none => none

namespace Version

/-- The inner helper `parse_with_build` of `Version::parse`: split off
everything after the first `+` as build metadata, then parse the rest as a
`u16`. -/
def parse_with_build (s : List Char) : Option (Nat × Option (List Char)) :=
  match splitOnce '+' s with
  | some (s', build) => (parseU16 s').map fun v => (v, some build)
  | none => (parseU16 s).map fun v => (v, none)

/-- `Version::parse`: `splitn(3, '.')` yields major, minor and the remainder;
the remainder is split once on `-` (pre-release present or not), a
pre-release part is split once on `.` into stream and number, and build
metadata is taken by `parse_with_build`. -/
def parse (s : List Char) : Option Version :=
  match splitOnce '.' s with
  | none => none
  | some (majS, r1) =>
    match parseU16 majS with
    | none => none
    | some major =>
      match splitOnce '.' r1 with
      | none => none
      | some (minS, r2) =>
        match parseU16 minS with
        | none => none
        | some minor =>
          match splitOnce '-' r2 with
          | some (patchS, preS) =>
            match splitOnce '.' preS with
            | none => none
            | some (stream, verS) =>
              match parse_with_build verS, parseU16 patchS with
              | some (v, build), some patch =>
                some ⟨⟨major, minor, patch⟩, some ⟨stream, v⟩, build⟩
              | _, _ => none
          | none =>
            match parse_with_build r2 with
            | some (patch, build) => some ⟨⟨major, minor, patch⟩, none, build⟩
            | none => none

end Version

/-- `u16` `Display`: decimal digits, most significant first, no sign and no
leading zeros. -/
def digitChar (n : Nat) : Char :=
  match n with
  | 0 => '0' | 1 => '1' | 2 => '2' | 3 => '3' | 4 => '4'
  | 5 => '5' | 6 => '6' | 7 => '7' | 8 => '8' | 9 => '9'
  | _ => '*'

/-- Decimal representation of a natural number (the digit loop behind
`Display` for `u16`). -/
def toDigits (n : Nat) : List Char :=
  if n < 10 then [digitChar n]
  else toDigits (n / 10) ++ [digitChar (n % 10)]
decreasing_by exact Nat.div_lt_self (by omega) (by omega)

/-- Numeric value of a digit string (helper for stating parser lemmas). -/
def digitsVal (s : List Char) : Nat :=
  s.foldl (fun a c => a * 10 + (charDigit? c).getD 0) 0

/-- `Display for MainVersion`: `"{major}.{minor}.{patch}"`. -/
def MainVersion.format (v : MainVersion) : List Char :=
  toDigits v.major ++ '.' :: toDigits v.minor ++ '.' :: toDigits v.patch

/-- `Display for Version`: the main triple, then `-{stream}.{number}` when a
pre-release part is present, then `+{build}` when build metadata is
present. -/
def Version.format (v : Version) : List Char :=
  MainVersion.format v.version
    ++ (match v.pre with
        | some p => '-' :: p.stream ++ '.' :: toDigits p.version
        | none => [])
    ++ (match v.build with
        | some b => '+' :: b
        | none => [])

/-- Tracker state (`struct LatestVersions`): the latest stable version with
its build metadata, the `MainVersion` of the tracked pre-release group, and
the per-stream latest pre-release entries of that group. -/
structure LatestVersions where
  stable : Option (MainVersion × Option (List Char))
  pre : Option MainVersion
  pre_by_stream : List (PreVersion × Option (List Char))
deriving DecidableEq, Repr

namespace LatestVersions

/-- `LatestVersions::default()`: no stable version, no pre-release group. -/
def default : LatestVersions := ⟨none, none, []⟩

/-- The `Ordering::Equal` branch of `push`: `iter_mut().find` locates the
first entry with the incoming stream name and bumps its number and build
exactly when the incoming number is strictly greater; when no entry matches,
the incoming entry is appended at the end. -/
def updateStream (p : PreVersion) (b : Option (List Char)) :
    List (PreVersion × Option (List Char)) → List (PreVersion × Option (List Char))
  | [] => [(p, b)]
  | (q, qb) :: rest =>
    if q.stream = p.stream then
      (if q.version < p.version then (⟨q.stream, p.version⟩, b) else (q, qb)) :: rest
    else (q, qb) :: updateStream p b rest

/-- The leading guard of `push`:
`self.stable.as_ref().map_or(false, |&(v, _)| v >= arg.version)`. -/
def stableGuard (st : Option (MainVersion × Option (List Char))) (w : MainVersion) : Bool :=
  match st with
  | some (v, _) => MainVersion.geb v w
  | none => false

/-- The comparison of `push`'s pre-release branch:
`self.pre.map_or(Ordering::Greater, |v| arg.version.cmp(&v))`. -/
def preCmp (pre : Option MainVersion) (w : MainVersion) : Ordering :=
  match pre with
  | none => .gt
  | some v => MainVersion.cmp w v

/-- The guard of `push`'s stable branch:
`self.pre.map_or(false, |v| arg.version >= v)`. -/
def preGuard (pre : Option MainVersion) (w : MainVersion) : Bool :=
  match pre with
  | some v => MainVersion.geb w v
  | none => false

/-- `LatestVersions::push`: drop the incoming version when the stored stable
version is `>=` it; otherwise a pre-release is compared against the tracked
pre-release `MainVersion` (absent compares as smaller) and a stable release
replaces `stable`, discarding the pre-release group when it is not strictly
newer than the incoming version. -/
def push (s : LatestVersions) (arg : Version) : LatestVersions :=
  if stableGuard s.stable arg.version then s
  else
    match arg.pre with
    | some argPre =>
      match preCmp s.pre arg.version with
      | .gt => { s with pre := some arg.version, pre_by_stream := [(argPre, arg.build)] }
      | .eq => { s with pre_by_stream := updateStream argPre arg.build s.pre_by_stream }
      | .lt => s
    | none =>
      if preGuard s.pre arg.version then
        { s with stable := some (arg.version, arg.build), pre := none, pre_by_stream := [] }
      else
        { s with stable := some (arg.version, arg.build) }

end LatestVersions

/-- A package name paired with a version (`struct CrateId`). -/
structure CrateId where
  name : List Char
  version : Version
deriving DecidableEq, Repr

namespace LatestVersions

/-- `LatestVersions::iter_ids` (the tracker's `resolve` query), collected
into a list: the stable identifier first when present, then one identifier
per `pre_by_stream` entry (in stored order) when a pre-release group is
tracked. -/
def iter_ids (s : LatestVersions) (name : List Char) : List CrateId :=
  (match s.stable with
   | some (version, build) => [⟨name, ⟨version, none, build⟩⟩]
   | none => [])
  ++ (match s.pre with
      | some version =>
        s.pre_by_stream.map fun e => ⟨name, ⟨version, some e.1, e.2⟩⟩
      | none => [])

end LatestVersions

namespace CrateId

/-- `CrateId::parse`: scan the positions of `-` from right to left and take
the first position at which the suffix parses as a `Version`; the prefix
before the hyphen is the name.  (The source's `name.get(..pos)` and
`name.get(pos + 1..)` always succeed here: the hyphen is a one-byte char, so
both indices are char boundaries.) -/
def parse (s : List Char) : Option CrateId :=
  (((List.range s.length).filter fun i => decide (s.get? i = some '-')).reverse).findSome?
    fun pos => (Version.parse (s.drop (pos + 1))).map fun v => ⟨s.take pos, v⟩

end CrateId

/-- The tracker states reachable from `default` by `push` operations. -/
inductive Reachable : LatestVersions → Prop
  | init : Reachable LatestVersions.default
  | step {s : LatestVersions} (h : Reachable s) (v : Version) :
      Reachable (LatestVersions.push s v)

/-! ### Ordering lemmas -/

theorem natCmp_lt {a b : Nat} : natCmp a b = .lt ↔ a < b := by
  unfold natCmp; split_ifs <;> simp_all <;> omega

theorem natCmp_gt {a b : Nat} : natCmp a b = .gt ↔ b < a := by
  unfold natCmp; split_ifs <;> simp_all <;> omega

theorem natCmp_eq {a b : Nat} : natCmp a b = .eq ↔ a = b := by
  unfold natCmp; split_ifs <;> simp_all <;> omega

theorem natCmp_swap (a b : Nat) : (natCmp a b).swap = natCmp b a := by
  unfold natCmp; split_ifs <;> simp_all [Ordering.swap] <;> omega

theorem natCmp_self (a : Nat) : natCmp a a = .eq := by
  simp [natCmp]

namespace MainVersion

theorem cmp_self (a : MainVersion) : MainVersion.cmp a a = .eq := by
  simp [MainVersion.cmp, natCmp_self]

theorem cmp_swap (a b : MainVersion) :
    (MainVersion.cmp a b).swap = MainVersion.cmp b a := by
  unfold MainVersion.cmp
  rw [← natCmp_swap a.major b.major, ← natCmp_swap a.minor b.minor,
    ← natCmp_swap a.patch b.patch]
  cases natCmp a.major b.major <;> cases natCmp a.minor b.minor <;>
    cases natCmp a.patch b.patch <;> rfl

theorem cmp_eq_iff {a b : MainVersion} : MainVersion.cmp a b = .eq ↔ a = b := by
  unfold MainVersion.cmp
  cases h1 : natCmp a.major b.major <;> cases h2 : natCmp a.minor b.minor <;>
    cases h3 : natCmp a.patch b.patch <;>
      simp only [natCmp_lt, natCmp_gt, natCmp_eq] at h1 h2 h3 <;>
        constructor <;> intro h <;>
          first
            | (cases a; cases b; simp_all)
            | (subst h; simp_all [natCmp_self])
            | simp_all

theorem cmp_gt_of_lt {a b : MainVersion} (h : MainVersion.cmp a b = .lt) :
    MainVersion.cmp b a = .gt := by
  rw [← MainVersion.cmp_swap, h]; rfl

theorem geb_iff {a b : MainVersion} :
    MainVersion.geb a b = true ↔ MainVersion.le b a := by
  unfold MainVersion.geb MainVersion.le
  rw [← MainVersion.cmp_swap a b]
  cases MainVersion.cmp a b <;> simp [Ordering.swap]

theorem geb_self (a : MainVersion) : MainVersion.geb a a = true := by
  simp [MainVersion.geb, cmp_self]

theorem geb_eq_false_of_lt {a b : MainVersion} (h : MainVersion.lt a b) :
    MainVersion.geb a b = false := by
  unfold MainVersion.lt at h
  simp [MainVersion.geb, h]

end MainVersion

/-- The incoming version's `MainVersion` strictly exceeds the recorded stable
`MainVersion`, or no stable version is recorded yet (the condition under
which the leading guard of `push` lets a version through). -/
def stableBelow : Option (MainVersion × Option (List Char)) → MainVersion → Prop
  | none, _ => True
  | some (v, _), w => MainVersion.lt v w

instance (st : Option (MainVersion × Option (List Char))) (w : MainVersion) :
    Decidable (stableBelow st w) := by
  unfold stableBelow; split <;> infer_instance

theorem stable_guard_false {st : Option (MainVersion × Option (List Char))}
    {w : MainVersion} (h : stableBelow st w) :
    LatestVersions.stableGuard st w = false := by
  match st with
  | none => rfl
  | some (v, b) => exact MainVersion.geb_eq_false_of_lt h

/-! ### `updateStream` lemmas -/

namespace LatestVersions

theorem updateStream_ne_nil (p : PreVersion) (b : Option (List Char))
    (L : List (PreVersion × Option (List Char))) : updateStream p b L ≠ [] := by
  cases L with
  | nil => simp [updateStream]
  | cons e rest => cases e; simp only [updateStream]; split <;> simp

theorem updateStream_of_not_mem (p : PreVersion) (b : Option (List Char))
    (L : List (PreVersion × Option (List Char)))
    (h : ∀ e ∈ L, e.1.stream ≠ p.stream) :
    updateStream p b L = L ++ [(p, b)] := by
  induction L with
  | nil => rfl
  | cons e rest ih =>
    cases e with
    | mk q qb =>
      have hq : q.stream ≠ p.stream := h (q, qb) (by simp)
      simp only [updateStream, if_neg hq, List.cons_append, List.cons.injEq, true_and]
      exact ih fun x hx => h x (by simp [hx])

theorem updateStream_first_match (p : PreVersion) (b : Option (List Char))
    (L1 L2 : List (PreVersion × Option (List Char)))
    (e : PreVersion × Option (List Char))
    (h1 : ∀ x ∈ L1, x.1.stream ≠ p.stream) (he : e.1.stream = p.stream) :
    updateStream p b (L1 ++ e :: L2) =
      L1 ++ (if e.1.version < p.version then (⟨e.1.stream, p.version⟩, b) else e) :: L2 := by
  induction L1 with
  | nil =>
    cases e with
    | mk q qb => simp only [List.nil_append, updateStream, if_pos he]
  | cons x L1 ih =>
    cases x with
    | mk q qb =>
      have hq : q.stream ≠ p.stream := h1 (q, qb) (by simp)
      simp only [List.cons_append, updateStream, if_neg hq, List.cons.injEq, true_and]
      exact ih fun x hx => h1 x (by simp [hx])

theorem updateStream_streams_of_match (p : PreVersion) (b : Option (List Char))
    (L : List (PreVersion × Option (List Char)))
    (h : ∃ e ∈ L, e.1.stream = p.stream) :
    (updateStream p b L).map (fun e => e.1.stream) = L.map fun e => e.1.stream := by
  induction L with
  | nil => simp at h
  | cons x L ih =>
    cases x with
    | mk q qb =>
      by_cases hq : q.stream = p.stream
      · simp only [updateStream, if_pos hq]
        split <;> simp [hq]
      · simp only [updateStream, if_neg hq, List.map_cons, List.cons.injEq, true_and]
        refine ih ?_
        rcases h with ⟨e, he, hs⟩
        rcases List.mem_cons.mp he with h' | h'
        · exact absurd (by simpa [h'] using hs) hq
        · exact ⟨e, h', hs⟩

theorem updateStream_idem (p : PreVersion) (b : Option (List Char))
    (L : List (PreVersion × Option (List Char))) :
    updateStream p b (updateStream p b L) = updateStream p b L := by
  induction L with
  | nil => simp [updateStream]
  | cons x L ih =>
    cases x with
    | mk q qb =>
      by_cases hq : q.stream = p.stream
      · have h1 : updateStream p b ((q, qb) :: L) =
            (if q.version < p.version then ((⟨q.stream, p.version⟩ : PreVersion), b)
             else (q, qb)) :: L := by
          simp only [updateStream, if_pos hq]
        rw [h1]
        by_cases hv : q.version < p.version
        · rw [if_pos hv]
          simp only [updateStream, if_pos hq]
          rw [if_neg (Nat.lt_irrefl p.version)]
        · rw [if_neg hv]
          simp only [updateStream, if_pos hq]
          rw [if_neg hv]
      · simp [updateStream, if_neg hq, ih]

end LatestVersions

/-! ### `push` branch lemmas -/

namespace LatestVersions

theorem push_of_stable_ge {s : LatestVersions} {arg : Version} {V : MainVersion}
    {b : Option (List Char)} (hs : s.stable = some (V, b))
    (h : MainVersion.le arg.version V) : s.push arg = s := by
  unfold push
  rw [hs]
  have : stableGuard (some (V, b)) arg.version = true := MainVersion.geb_iff.mpr h
  rw [this]
  rfl

theorem push_pre_gt {s : LatestVersions} {arg : Version} {p : PreVersion}
    (hst : stableBelow s.stable arg.version) (hp : arg.pre = some p)
    (hgt : preCmp s.pre arg.version = .gt) :
    s.push arg = { s with pre := some arg.version, pre_by_stream := [(p, arg.build)] } := by
  unfold push
  rw [stable_guard_false hst, hp, hgt]
  rfl

theorem push_pre_eq {s : LatestVersions} {arg : Version} {p : PreVersion}
    (hst : stableBelow s.stable arg.version) (hp : arg.pre = some p)
    (heq : preCmp s.pre arg.version = .eq) :
    s.push arg = { s with pre_by_stream := updateStream p arg.build s.pre_by_stream } := by
  unfold push
  rw [stable_guard_false hst, hp, heq]
  rfl

theorem push_pre_lt {s : LatestVersions} {arg : Version} {p : PreVersion}
    (hst : stableBelow s.stable arg.version) (hp : arg.pre = some p)
    (hlt : preCmp s.pre arg.version = .lt) :
    s.push arg = s := by
  unfold push
  rw [stable_guard_false hst, hp, hlt]
  rfl

theorem push_stable_clear {s : LatestVersions} {arg : Version}
    (hst : stableBelow s.stable arg.version) (hp : arg.pre = none)
    (hg : preGuard s.pre arg.version = true) :
    s.push arg =
      { s with stable := some (arg.version, arg.build), pre := none, pre_by_stream := [] } := by
  unfold push
  rw [stable_guard_false hst, hp, hg]
  rfl

theorem push_stable_keep {s : LatestVersions} {arg : Version}
    (hst : stableBelow s.stable arg.version) (hp : arg.pre = none)
    (hg : preGuard s.pre arg.version = false) :
    s.push arg = { s with stable := some (arg.version, arg.build) } := by
  unfold push
  rw [stable_guard_false hst, hp, hg]
  rfl

theorem push_stable_sets_stable {s : LatestVersions} {arg : Version}
    (hst : stableBelow s.stable arg.version) (hp : arg.pre = none) :
    (s.push arg).stable = some (arg.version, arg.build) := by
  cases hg : preGuard s.pre arg.version with
  | true => rw [push_stable_clear hst hp hg]
  | false => rw [push_stable_keep hst hp hg]

end LatestVersions

namespace LatestVersions

theorem push_guard_true {s : LatestVersions} {arg : Version}
    (h : stableGuard s.stable arg.version = true) : s.push arg = s := by
  unfold push
  rw [h]
  rfl

theorem stableBelow_of_guard_false {st : Option (MainVersion × Option (List Char))}
    {w : MainVersion} (h : stableGuard st w = false) : stableBelow st w := by
  match st with
  | none => trivial
  | some (v, b) =>
    show MainVersion.lt v w
    have h' : MainVersion.geb v w = false := h
    unfold MainVersion.geb at h'
    unfold MainVersion.lt
    cases hc : MainVersion.cmp v w <;> rw [hc] at h' <;> simp_all

theorem preCmp_eq_some {pre : Option MainVersion} {w : MainVersion}
    (h : preCmp pre w = .eq) : ∃ V, pre = some V ∧ MainVersion.cmp w V = .eq := by
  match pre with
  | none => simp [preCmp] at h
  | some V => exact ⟨V, rfl, h⟩

/-- The internal invariant of the tracker: the per-stream entries carry
pairwise distinct stream names, and entries exist exactly when a pre-release
group is tracked. -/
def goodState (s : LatestVersions) : Prop :=
  (s.pre_by_stream.map fun e => e.1.stream).Nodup ∧
  (s.pre_by_stream ≠ [] ↔ s.pre.isSome = true)

theorem goodState_default : goodState LatestVersions.default := by
  constructor <;> simp [LatestVersions.default]

theorem goodState_push {s : LatestVersions} (h : goodState s) (arg : Version) :
    goodState (s.push arg) := by
  obtain ⟨hnd, hne⟩ := h
  cases hg : stableGuard s.stable arg.version with
  | true => rw [push_guard_true hg]; exact ⟨hnd, hne⟩
  | false =>
    have hsb := stableBelow_of_guard_false hg
    cases hp : arg.pre with
    | some p =>
      cases hc : preCmp s.pre arg.version with
      | gt => rw [push_pre_gt hsb hp hc]; constructor <;> simp
      | eq =>
        rw [push_pre_eq hsb hp hc]
        obtain ⟨V, hV, -⟩ := preCmp_eq_some hc
        constructor
        · by_cases hm : ∃ e ∈ s.pre_by_stream, e.1.stream = p.stream
          · rw [updateStream_streams_of_match p arg.build _ hm]
            exact hnd
          · push_neg at hm
            rw [updateStream_of_not_mem p arg.build _ hm]
            simp only [List.map_append, List.map_cons, List.map_nil]
            rw [List.nodup_append]
            refine ⟨hnd, by simp, ?_⟩
            intro x hx hx'
            simp only [List.mem_singleton] at hx'
            obtain ⟨e, he, rfl⟩ := List.mem_map.mp hx
            exact hm e he hx'
        · simp [updateStream_ne_nil, hV]
      | lt => rw [push_pre_lt hsb hp hc]; exact ⟨hnd, hne⟩
    | none =>
      cases hgp : preGuard s.pre arg.version with
      | true => rw [push_stable_clear hsb hp hgp]; constructor <;> simp
      | false => rw [push_stable_keep hsb hp hgp]; exact ⟨hnd, hne⟩

end LatestVersions

namespace LatestVersions

theorem push_idem (s : LatestVersions) (v : Version) :
    (s.push v).push v = s.push v := by
  cases hg : stableGuard s.stable v.version with
  | true => simp only [push_guard_true hg]
  | false =>
    have hsb := stableBelow_of_guard_false hg
    cases hp : v.pre with
    | some p =>
      cases hc : preCmp s.pre v.version with
      | gt =>
        rw [push_pre_gt hsb hp hc]
        have hsb' : stableBelow ({ s with pre := some v.version, pre_by_stream := [(p, v.build)] } : LatestVersions).stable v.version := hsb
        have hc' : preCmp ({ s with pre := some v.version, pre_by_stream := [(p, v.build)] } : LatestVersions).pre v.version = .eq := by
          show MainVersion.cmp v.version v.version = .eq
          exact MainVersion.cmp_self v.version
        rw [push_pre_eq hsb' hp hc']
        have hu : updateStream p v.build [(p, v.build)] = [(p, v.build)] := by
          simp [updateStream]
        rw [show ({ s with pre := some v.version, pre_by_stream := [(p, v.build)] } : LatestVersions).pre_by_stream = [(p, v.build)] from rfl, hu]
      | eq =>
        rw [push_pre_eq hsb hp hc]
        have hsb' : stableBelow ({ s with pre_by_stream := updateStream p v.build s.pre_by_stream } : LatestVersions).stable v.version := hsb
        have hc' : preCmp ({ s with pre_by_stream := updateStream p v.build s.pre_by_stream } : LatestVersions).pre v.version = .eq := hc
        rw [push_pre_eq hsb' hp hc']
        rw [show ({ s with pre_by_stream := updateStream p v.build s.pre_by_stream } : LatestVersions).pre_by_stream = updateStream p v.build s.pre_by_stream from rfl]
        rw [updateStream_idem]
      | lt => simp only [push_pre_lt hsb hp hc]
    | none =>
      have h1 := push_stable_sets_stable hsb hp
      have hg2 : stableGuard (s.push v).stable v.version = true := by
        rw [h1]
        exact MainVersion.geb_self v.version
      exact push_guard_true hg2

end LatestVersions

/-! ### Tracker claims -/

/-- C1: Monotonic stable dominance — in every reachable tracker state whose
stable slot records `MainVersion` V, pushing any further version (stable or
pre-release, with or without build metadata) whose `MainVersion` is `≤ V`
is a no-op: the state, and hence the `iter_ids` sequence, is unchanged. -/
theorem LatestVersions.stable_dominance_no_op (s : LatestVersions) (arg : Version)
    (name : List Char) (V : MainVersion) (b : Option (List Char))
    (hr : Reachable s) (hs : s.stable = some (V, b))
    (hle : MainVersion.le arg.version V) :
    s.push arg = s ∧ (s.push arg).iter_ids name = s.iter_ids name :=
  ⟨LatestVersions.push_of_stable_ge hs hle, by
    rw [LatestVersions.push_of_stable_ge hs hle]⟩

/-- Witness for C1: the reachable state holding stable `1.0.0`, pushed the
pre-release `1.0.0-rc.1+x` (equal `MainVersion`). -/
theorem LatestVersions.stable_dominance_no_op_check :
    Reachable (LatestVersions.default.push ⟨⟨1, 0, 0⟩, none, none⟩) ∧
    (LatestVersions.default.push ⟨⟨1, 0, 0⟩, none, none⟩).stable = some (⟨1, 0, 0⟩, none) ∧
    MainVersion.le ⟨1, 0, 0⟩ ⟨1, 0, 0⟩ ∧
    ((LatestVersions.default.push ⟨⟨1, 0, 0⟩, none, none⟩).push
        ⟨⟨1, 0, 0⟩, some ⟨['r', 'c'], 1⟩, some ['x']⟩ =
      LatestVersions.default.push ⟨⟨1, 0, 0⟩, none, none⟩ ∧
    ((LatestVersions.default.push ⟨⟨1, 0, 0⟩, none, none⟩).push
        ⟨⟨1, 0, 0⟩, some ⟨['r', 'c'], 1⟩, some ['x']⟩).iter_ids [] =
      (LatestVersions.default.push ⟨⟨1, 0, 0⟩, none, none⟩).iter_ids []) :=
  ⟨Reachable.step Reachable.init _, by decide, by decide,
    LatestVersions.stable_dominance_no_op
      (LatestVersions.default.push ⟨⟨1, 0, 0⟩, none, none⟩)
      ⟨⟨1, 0, 0⟩, some ⟨['r', 'c'], 1⟩, some ['x']⟩ [] ⟨1, 0, 0⟩ none
      (Reachable.step Reachable.init _) (by decide) (by decide)⟩


/-- C2: a stable release whose `MainVersion` strictly exceeds the recorded
stable `MainVersion` (or arrives with none recorded) sets
`stable = (version.main, version.build)`; when a pre-release group with
`pre_main ≤ version.main` was tracked, `pre` is cleared and `pre_by_stream`
emptied.  In particular, after the spec's scenario (6) state
(stable `1.0.0`, pre-releases `1.1.0-rc.2` and `1.1.0-beta.1`),
pushing `1.1.0` makes `iter_ids` yield exactly `1.1.0`. -/
theorem LatestVersions.stable_push_subsumes (s : LatestVersions) (arg : Version)
    (name : List Char) (hp : arg.pre = none)
    (hst : stableBelow s.stable arg.version) :
    (s.push arg).stable = some (arg.version, arg.build) ∧
    (∀ V, s.pre = some V → MainVersion.le V arg.version →
      (s.push arg).pre = none ∧ (s.push arg).pre_by_stream = []) ∧
    List.map (fun c => c.version)
      ((((((LatestVersions.default.push ⟨⟨1, 0, 0⟩, none, none⟩).push
          ⟨⟨1, 1, 0⟩, some ⟨['r', 'c'], 1⟩, none⟩).push
          ⟨⟨1, 1, 0⟩, some ⟨['r', 'c'], 2⟩, none⟩).push
          ⟨⟨1, 1, 0⟩, some ⟨['b', 'e', 't', 'a'], 1⟩, none⟩).push
          ⟨⟨1, 1, 0⟩, none, none⟩).iter_ids name) =
      [⟨⟨1, 1, 0⟩, none, none⟩] := by
  refine ⟨LatestVersions.push_stable_sets_stable hst hp, fun V hV hle => ?_, by rfl⟩
  have hg : LatestVersions.preGuard s.pre arg.version = true := by
    rw [hV]
    exact MainVersion.geb_iff.mpr hle
  rw [LatestVersions.push_stable_clear hst hp hg]
  exact ⟨rfl, rfl⟩

/-- Witness for C2: a tracked pre-release group at `2.0.0` subsumed by the
stable release `2.0.0+b`. -/
theorem LatestVersions.stable_push_subsumes_check :
    (⟨⟨2, 0, 0⟩, none, some ['b']⟩ : Version).pre = none ∧
    stableBelow
      (LatestVersions.default.push ⟨⟨2, 0, 0⟩, some ⟨['r', 'c'], 1⟩, none⟩).stable ⟨2, 0, 0⟩ ∧
    (((LatestVersions.default.push ⟨⟨2, 0, 0⟩, some ⟨['r', 'c'], 1⟩, none⟩).push
        ⟨⟨2, 0, 0⟩, none, some ['b']⟩).stable = some (⟨2, 0, 0⟩, some ['b']) ∧
    (∀ V, (LatestVersions.default.push ⟨⟨2, 0, 0⟩, some ⟨['r', 'c'], 1⟩, none⟩).pre = some V →
      MainVersion.le V ⟨2, 0, 0⟩ →
      ((LatestVersions.default.push ⟨⟨2, 0, 0⟩, some ⟨['r', 'c'], 1⟩, none⟩).push
          ⟨⟨2, 0, 0⟩, none, some ['b']⟩).pre = none ∧
      ((LatestVersions.default.push ⟨⟨2, 0, 0⟩, some ⟨['r', 'c'], 1⟩, none⟩).push
          ⟨⟨2, 0, 0⟩, none, some ['b']⟩).pre_by_stream = []) ∧
    List.map (fun c => c.version)
      ((((((LatestVersions.default.push ⟨⟨1, 0, 0⟩, none, none⟩).push
          ⟨⟨1, 1, 0⟩, some ⟨['r', 'c'], 1⟩, none⟩).push
          ⟨⟨1, 1, 0⟩, some ⟨['r', 'c'], 2⟩, none⟩).push
          ⟨⟨1, 1, 0⟩, some ⟨['b', 'e', 't', 'a'], 1⟩, none⟩).push
          ⟨⟨1, 1, 0⟩, none, none⟩).iter_ids []) =
      [⟨⟨1, 1, 0⟩, none, none⟩]) :=
  ⟨rfl, by decide,
    LatestVersions.stable_push_subsumes
      (LatestVersions.default.push ⟨⟨2, 0, 0⟩, some ⟨['r', 'c'], 1⟩, none⟩)
      ⟨⟨2, 0, 0⟩, none, some ['b']⟩ [] rfl (by decide)⟩

/-- C3: Group invalidation — with a pre-release group tracked at
`MainVersion` V, pushing a pre-release whose `MainVersion` strictly exceeds
V and any recorded stable `MainVersion` retargets the group to the new
`MainVersion` and leaves `pre_by_stream` holding exactly the pushed
`(PreVersion, build)` pair. -/
theorem LatestVersions.pre_group_invalidation (s : LatestVersions) (arg : Version)
    (p : PreVersion) (V : MainVersion) (hr : Reachable s) (hp : arg.pre = some p)
    (hV : s.pre = some V) (hlt : MainVersion.lt V arg.version)
    (hst : stableBelow s.stable arg.version) :
    (s.push arg).pre = some arg.version ∧
    (s.push arg).pre_by_stream = [(p, arg.build)] ∧
    (s.push arg).stable = s.stable := by
  have hc : LatestVersions.preCmp s.pre arg.version = .gt := by
    rw [hV]
    exact MainVersion.cmp_gt_of_lt hlt
  rw [LatestVersions.push_pre_gt hst hp hc]
  exact ⟨rfl, rfl, rfl⟩

/-- Witness for C3: the group at `1.1.0` is replaced by `1.2.0-beta.3+z`. -/
theorem LatestVersions.pre_group_invalidation_check :
    Reachable (LatestVersions.default.push ⟨⟨1, 1, 0⟩, some ⟨['r', 'c'], 1⟩, none⟩) ∧
    (⟨⟨1, 2, 0⟩, some ⟨['b', 'e', 't', 'a'], 3⟩, some ['z']⟩ : Version).pre =
      some ⟨['b', 'e', 't', 'a'], 3⟩ ∧
    (LatestVersions.default.push ⟨⟨1, 1, 0⟩, some ⟨['r', 'c'], 1⟩, none⟩).pre = some ⟨1, 1, 0⟩ ∧
    MainVersion.lt ⟨1, 1, 0⟩ ⟨1, 2, 0⟩ ∧
    stableBelow
      (LatestVersions.default.push ⟨⟨1, 1, 0⟩, some ⟨['r', 'c'], 1⟩, none⟩).stable ⟨1, 2, 0⟩ ∧
    (((LatestVersions.default.push ⟨⟨1, 1, 0⟩, some ⟨['r', 'c'], 1⟩, none⟩).push
        ⟨⟨1, 2, 0⟩, some ⟨['b', 'e', 't', 'a'], 3⟩, some ['z']⟩).pre = some ⟨1, 2, 0⟩ ∧
    ((LatestVersions.default.push ⟨⟨1, 1, 0⟩, some ⟨['r', 'c'], 1⟩, none⟩).push
        ⟨⟨1, 2, 0⟩, some ⟨['b', 'e', 't', 'a'], 3⟩, some ['z']⟩).pre_by_stream =
      [(⟨['b', 'e', 't', 'a'], 3⟩, some ['z'])] ∧
    ((LatestVersions.default.push ⟨⟨1, 1, 0⟩, some ⟨['r', 'c'], 1⟩, none⟩).push
        ⟨⟨1, 2, 0⟩, some ⟨['b', 'e', 't', 'a'], 3⟩, some ['z']⟩).stable =
      (LatestVersions.default.push ⟨⟨1, 1, 0⟩, some ⟨['r', 'c'], 1⟩, none⟩).stable) :=
  ⟨Reachable.step Reachable.init _, rfl, by decide, by decide, by decide,
    LatestVersions.pre_group_invalidation
      (LatestVersions.default.push ⟨⟨1, 1, 0⟩, some ⟨['r', 'c'], 1⟩, none⟩)
      ⟨⟨1, 2, 0⟩, some ⟨['b', 'e', 't', 'a'], 3⟩, some ['z']⟩
      ⟨['b', 'e', 't', 'a'], 3⟩ ⟨1, 1, 0⟩
      (Reachable.step Reachable.init _) rfl (by decide) (by decide) (by decide)⟩

/-- C4: Equal-`MainVersion` pre-release stream rule — when the pushed
pre-release's `MainVersion` equals the tracked `pre_main` (and exceeds any
recorded stable `MainVersion`), an existing entry for the same stream has
its number and build replaced exactly when the incoming number is strictly
greater, and a missing stream is appended; pushing `2.0.0-beta.1` then
`2.0.0-rc.1` into a fresh tracker makes `iter_ids` yield both, each once. -/
theorem LatestVersions.pre_equal_main_stream_rule (s : LatestVersions) (arg : Version)
    (p : PreVersion) (V : MainVersion) (name : List Char) (hp : arg.pre = some p)
    (hV : s.pre = some V) (heq : arg.version = V)
    (hst : stableBelow s.stable arg.version) :
    ((∀ e ∈ s.pre_by_stream, e.1.stream ≠ p.stream) →
      (s.push arg).pre_by_stream = s.pre_by_stream ++ [(p, arg.build)]) ∧
    (∀ L1 e L2, s.pre_by_stream = L1 ++ e :: L2 →
      (∀ x ∈ L1, x.1.stream ≠ p.stream) → e.1.stream = p.stream →
      (s.push arg).pre_by_stream =
        L1 ++ (if e.1.version < p.version then (⟨e.1.stream, p.version⟩, arg.build)
               else e) :: L2) ∧
    List.map (fun c => c.version)
      (((LatestVersions.default.push ⟨⟨2, 0, 0⟩, some ⟨['b', 'e', 't', 'a'], 1⟩, none⟩).push
          ⟨⟨2, 0, 0⟩, some ⟨['r', 'c'], 1⟩, none⟩).iter_ids name) =
      [⟨⟨2, 0, 0⟩, some ⟨['b', 'e', 't', 'a'], 1⟩, none⟩,
       ⟨⟨2, 0, 0⟩, some ⟨['r', 'c'], 1⟩, none⟩] := by
  have hc : LatestVersions.preCmp s.pre arg.version = .eq := by
    rw [hV, heq]
    exact MainVersion.cmp_self V
  rw [LatestVersions.push_pre_eq hst hp hc]
  refine ⟨fun h => ?_, fun L1 e L2 hL h1 he => ?_, by rfl⟩
  · exact LatestVersions.updateStream_of_not_mem p arg.build _ h
  · rw [hL]
    exact LatestVersions.updateStream_first_match p arg.build L1 L2 e h1 he

/-- Witness for C4: a group at `3.0.0` holding stream `b` at number 1,
pushed `3.0.0-b.2+q`. -/
theorem LatestVersions.pre_equal_main_stream_rule_check :
    (⟨⟨3, 0, 0⟩, some ⟨['b'], 2⟩, some ['q']⟩ : Version).pre = some ⟨['b'], 2⟩ ∧
    (LatestVersions.default.push ⟨⟨3, 0, 0⟩, some ⟨['b'], 1⟩, none⟩).pre = some ⟨3, 0, 0⟩ ∧
    (⟨⟨3, 0, 0⟩, some ⟨['b'], 2⟩, some ['q']⟩ : Version).version = ⟨3, 0, 0⟩ ∧
    stableBelow (LatestVersions.default.push ⟨⟨3, 0, 0⟩, some ⟨['b'], 1⟩, none⟩).stable
      ⟨3, 0, 0⟩ ∧
    (((∀ e ∈ (LatestVersions.default.push ⟨⟨3, 0, 0⟩, some ⟨['b'], 1⟩, none⟩).pre_by_stream,
        e.1.stream ≠ (⟨['b'], 2⟩ : PreVersion).stream) →
      ((LatestVersions.default.push ⟨⟨3, 0, 0⟩, some ⟨['b'], 1⟩, none⟩).push
          ⟨⟨3, 0, 0⟩, some ⟨['b'], 2⟩, some ['q']⟩).pre_by_stream =
        (LatestVersions.default.push ⟨⟨3, 0, 0⟩, some ⟨['b'], 1⟩, none⟩).pre_by_stream ++
          [(⟨['b'], 2⟩, some ['q'])]) ∧
    (∀ L1 e L2,
      (LatestVersions.default.push ⟨⟨3, 0, 0⟩, some ⟨['b'], 1⟩, none⟩).pre_by_stream =
        L1 ++ e :: L2 →
      (∀ x ∈ L1, x.1.stream ≠ (⟨['b'], 2⟩ : PreVersion).stream) →
      e.1.stream = (⟨['b'], 2⟩ : PreVersion).stream →
      ((LatestVersions.default.push ⟨⟨3, 0, 0⟩, some ⟨['b'], 1⟩, none⟩).push
          ⟨⟨3, 0, 0⟩, some ⟨['b'], 2⟩, some ['q']⟩).pre_by_stream =
        L1 ++ (if e.1.version < (⟨['b'], 2⟩ : PreVersion).version
               then (⟨e.1.stream, (⟨['b'], 2⟩ : PreVersion).version⟩, some ['q'])
               else e) :: L2) ∧
    List.map (fun c => c.version)
      (((LatestVersions.default.push ⟨⟨2, 0, 0⟩, some ⟨['b', 'e', 't', 'a'], 1⟩, none⟩).push
          ⟨⟨2, 0, 0⟩, some ⟨['r', 'c'], 1⟩, none⟩).iter_ids []) =
      [⟨⟨2, 0, 0⟩, some ⟨['b', 'e', 't', 'a'], 1⟩, none⟩,
       ⟨⟨2, 0, 0⟩, some ⟨['r', 'c'], 1⟩, none⟩]) :=
  ⟨rfl, by decide, rfl, by decide,
    LatestVersions.pre_equal_main_stream_rule
      (LatestVersions.default.push ⟨⟨3, 0, 0⟩, some ⟨['b'], 1⟩, none⟩)
      ⟨⟨3, 0, 0⟩, some ⟨['b'], 2⟩, some ['q']⟩ ⟨['b'], 2⟩ ⟨3, 0, 0⟩ []
      rfl (by decide) rfl (by decide)⟩

/-- C9: Push idempotence — for every reachable tracker state, pushing the
same `Version` twice leaves the tracker exactly as pushing it once, so
`iter_ids` is unchanged as well. -/
theorem LatestVersions.push_idempotent (s : LatestVersions) (v : Version)
    (name : List Char) (hr : Reachable s) :
    (s.push v).push v = s.push v ∧
    ((s.push v).push v).iter_ids name = (s.push v).iter_ids name :=
  ⟨LatestVersions.push_idem s v, by rw [LatestVersions.push_idem]⟩

/-- Witness for C9: double push of `1.0.0-rc.1` on the empty tracker. -/
theorem LatestVersions.push_idempotent_check :
    Reachable LatestVersions.default ∧
    ((LatestVersions.default.push ⟨⟨1, 0, 0⟩, some ⟨['r', 'c'], 1⟩, none⟩).push
        ⟨⟨1, 0, 0⟩, some ⟨['r', 'c'], 1⟩, none⟩ =
      LatestVersions.default.push ⟨⟨1, 0, 0⟩, some ⟨['r', 'c'], 1⟩, none⟩ ∧
    (((LatestVersions.default.push ⟨⟨1, 0, 0⟩, some ⟨['r', 'c'], 1⟩, none⟩).push
        ⟨⟨1, 0, 0⟩, some ⟨['r', 'c'], 1⟩, none⟩).iter_ids ['n'] =
      (LatestVersions.default.push ⟨⟨1, 0, 0⟩, some ⟨['r', 'c'], 1⟩, none⟩).iter_ids ['n'])) :=
  ⟨Reachable.init,
    LatestVersions.push_idempotent LatestVersions.default
      ⟨⟨1, 0, 0⟩, some ⟨['r', 'c'], 1⟩, none⟩ ['n'] Reachable.init⟩

/-- C10: Implicit state invariant — every state reachable from the default
tracker by pushes has pairwise distinct stream names in `pre_by_stream`,
`pre_by_stream` is non-empty exactly when a pre-release `MainVersion` is
tracked, and consequently `iter_ids` never yields two identifiers with the
same pre-release stream name. -/
theorem LatestVersions.reachable_streams_distinct (s : LatestVersions)
    (name : List Char) (h : Reachable s) :
    (s.pre_by_stream.map fun e => e.1.stream).Nodup ∧
    (s.pre_by_stream ≠ [] ↔ s.pre.isSome = true) ∧
    ((s.iter_ids name).filterMap fun c => c.version.pre.map fun p => p.stream).Nodup := by
  have hg : LatestVersions.goodState s := by
    induction h with
    | init => exact LatestVersions.goodState_default
    | step h v ih => exact LatestVersions.goodState_push ih v
  obtain ⟨hnd, hne⟩ := hg
  refine ⟨hnd, hne, ?_⟩
  have hmain : ∀ (L : List (PreVersion × Option (List Char))) (V : MainVersion),
      List.filterMap (fun c => Option.map (fun p => p.stream) c.version.pre)
        (L.map fun e => (⟨name, ⟨V, some e.1, e.2⟩⟩ : CrateId)) =
      L.map fun e => e.1.stream := by
    intro L V
    induction L with
    | nil => rfl
    | cons e L ih => simp [List.filterMap_cons, ih]
  cases hs : s.stable with
  | none =>
    cases hp : s.pre with
    | none => simp [LatestVersions.iter_ids, hs, hp]
    | some V =>
      simp only [LatestVersions.iter_ids, hs, hp, List.nil_append]
      rw [hmain]
      exact hnd
  | some vb =>
    cases vb with
    | mk W b =>
      cases hp : s.pre with
      | none => simp [LatestVersions.iter_ids, hs, hp]
      | some V =>
        simp only [LatestVersions.iter_ids, hs, hp, List.singleton_append,
          List.filterMap_cons, Option.map_none']
        rw [hmain]
        exact hnd

/-- Witness for C10: the reachable state after pushing `1.0.0` and
`1.1.0-rc.1`. -/
theorem LatestVersions.reachable_streams_distinct_check :
    Reachable ((LatestVersions.default.push ⟨⟨1, 0, 0⟩, none, none⟩).push
      ⟨⟨1, 1, 0⟩, some ⟨['r', 'c'], 1⟩, none⟩) ∧
    ((((LatestVersions.default.push ⟨⟨1, 0, 0⟩, none, none⟩).push
        ⟨⟨1, 1, 0⟩, some ⟨['r', 'c'], 1⟩, none⟩).pre_by_stream.map
          fun e => e.1.stream).Nodup ∧
    (((LatestVersions.default.push ⟨⟨1, 0, 0⟩, none, none⟩).push
        ⟨⟨1, 1, 0⟩, some ⟨['r', 'c'], 1⟩, none⟩).pre_by_stream ≠ [] ↔
      ((LatestVersions.default.push ⟨⟨1, 0, 0⟩, none, none⟩).push
        ⟨⟨1, 1, 0⟩, some ⟨['r', 'c'], 1⟩, none⟩).pre.isSome = true) ∧
    ((((LatestVersions.default.push ⟨⟨1, 0, 0⟩, none, none⟩).push
        ⟨⟨1, 1, 0⟩, some ⟨['r', 'c'], 1⟩, none⟩).iter_ids ['n']).filterMap
          fun c => c.version.pre.map fun p => p.stream).Nodup) :=
  ⟨Reachable.step (Reachable.step Reachable.init _) _,
    LatestVersions.reachable_streams_distinct
      ((LatestVersions.default.push ⟨⟨1, 0, 0⟩, none, none⟩).push
        ⟨⟨1, 1, 0⟩, some ⟨['r', 'c'], 1⟩, none⟩) ['n']
      (Reachable.step (Reachable.step Reachable.init _) _)⟩

/-! ### Digit and split lemmas -/

theorem charDigit?_lt {c : Char} {d : Nat} (h : charDigit? c = some d) : d < 10 := by
  unfold charDigit? at h
  split_ifs at h <;> first
    | exact Option.noConfusion h
    | (injection h with h; omega)

theorem digitChar_charDigit? {c : Char} {d : Nat} (h : charDigit? c = some d) :
    digitChar d = c := by
  unfold charDigit? at h
  split_ifs at h with h0 h1 h2 h3 h4 h5 h6 h7 h8 h9 <;> first
    | exact Option.noConfusion h
    | (injection h with h
       subst h
       first
         | subst h0 | subst h1 | subst h2 | subst h3 | subst h4
         | subst h5 | subst h6 | subst h7 | subst h8 | subst h9
       decide)

theorem charDigit?_digitChar {d : Nat} (h : d < 10) : charDigit? (digitChar d) = some d := by
  interval_cases d <;> decide

theorem not_mem_of_digits {L : List Char} {ch : Char}
    (hall : ∀ c ∈ L, (charDigit? c).isSome = true)
    (hch : charDigit? ch = none) : ch ∉ L := by
  intro hm
  have := hall ch hm
  simp [hch] at this

theorem splitOnce_cons_self (c : Char) (ys : List Char) :
    splitOnce c (c :: ys) = some ([], ys) := by
  simp [splitOnce]

theorem splitOnce_append_left (c : Char) (xs zs : List Char) (h : c ∉ xs) :
    splitOnce c (xs ++ zs) = (splitOnce c zs).map fun q => (xs ++ q.1, q.2) := by
  induction xs with
  | nil =>
    simp only [List.nil_append]
    cases splitOnce c zs with
    | none => rfl
    | some q => cases q; rfl
  | cons x xs ih =>
    have hx : x ≠ c := fun hx => h (hx ▸ List.mem_cons_self x xs)
    have h' : c ∉ xs := fun hm => h (List.mem_cons_of_mem x hm)
    rw [List.cons_append, splitOnce, if_neg hx, ih h']
    cases hzs : splitOnce c zs with
    | none => rfl
    | some q => cases q; rfl

theorem splitOnce_eq_none (c : Char) (xs : List Char) (h : c ∉ xs) :
    splitOnce c xs = none := by
  have h2 := splitOnce_append_left c xs [] h
  rw [List.append_nil] at h2
  simpa using h2

theorem splitOnce_first (c : Char) (xs ys : List Char) (h : c ∉ xs) :
    splitOnce c (xs ++ c :: ys) = some (xs, ys) := by
  rw [splitOnce_append_left c xs (c :: ys) h, splitOnce_cons_self]
  simp

theorem splitOnce_mem (c : Char) (zs : List Char) (h : c ∈ zs) :
    ∃ l r, splitOnce c zs = some (l, r) := by
  induction zs with
  | nil => simp at h
  | cons z zs ih =>
    by_cases hz : z = c
    · subst hz
      exact ⟨[], zs, splitOnce_cons_self z zs⟩
    · have h' : c ∈ zs := by
        rcases List.mem_cons.mp h with h' | h'
        · exact absurd h'.symm hz
        · exact h'
      obtain ⟨l, r, hl⟩ := ih h'
      refine ⟨z :: l, r, ?_⟩
      rw [splitOnce, if_neg hz, hl]

/-! ### Numeric parsing lemmas -/

/-- Generalisation of `digitsVal` to an arbitrary accumulator. -/
def valFrom (acc : Nat) (s : List Char) : Nat :=
  s.foldl (fun a c => a * 10 + (charDigit? c).getD 0) acc

theorem digitsVal_eq_valFrom (s : List Char) : digitsVal s = valFrom 0 s := rfl

theorem valFrom_cons (acc : Nat) (c : Char) (s : List Char) :
    valFrom acc (c :: s) = valFrom (acc * 10 + (charDigit? c).getD 0) s := rfl

theorem valFrom_append (acc : Nat) (s t : List Char) :
    valFrom acc (s ++ t) = valFrom (valFrom acc s) t := by
  unfold valFrom
  exact List.foldl_append _ _ _ _

theorem valFrom_ge (acc : Nat) (s : List Char) : acc ≤ valFrom acc s := by
  induction s generalizing acc with
  | nil => exact Nat.le_refl acc
  | cons c s ih =>
    rw [valFrom_cons]
    exact Nat.le_trans (by omega) (ih (acc * 10 + (charDigit? c).getD 0))

theorem parseDigits_eq_some (s : List Char) (acc : Nat)
    (hd : ∀ c ∈ s, (charDigit? c).isSome = true)
    (hb : valFrom acc s < 65536) :
    parseDigits acc s = some (valFrom acc s) := by
  induction s generalizing acc with
  | nil => rfl
  | cons c s ih =>
    obtain ⟨d, hdd⟩ := Option.isSome_iff_exists.mp (hd c (List.mem_cons_self c s))
    rw [valFrom_cons] at hb ⊢
    rw [parseDigits, hdd]
    simp only [hdd, Option.getD_some] at hb ⊢
    have hlt : acc * 10 + d < 65536 :=
      Nat.lt_of_le_of_lt (valFrom_ge (acc * 10 + d) s) hb
    rw [if_pos hlt]
    exact ih (acc * 10 + d) (fun x hx => hd x (List.mem_cons_of_mem c hx)) hb

theorem parseDigits_none_of_bad (s : List Char) (acc : Nat) (c : Char)
    (hc : c ∈ s) (hbad : charDigit? c = none) : parseDigits acc s = none := by
  induction s generalizing acc with
  | nil => simp at hc
  | cons x s ih =>
    rw [parseDigits]
    cases hx : charDigit? x with
    | none => rfl
    | some d =>
      have hcs : c ∈ s := by
        rcases List.mem_cons.mp hc with h' | h'
        · subst h'
          rw [hx] at hbad
          exact Option.noConfusion hbad
        · exact h'
      show (if acc * 10 + d < 65536 then parseDigits (acc * 10 + d) s else none) = none
      by_cases hlt : acc * 10 + d < 65536
      · rw [if_pos hlt]
        exact ih _ hcs
      · rw [if_neg hlt]

theorem parseU16_digits (s : List Char) (h0 : s ≠ [])
    (hd : ∀ c ∈ s, (charDigit? c).isSome = true)
    (hb : digitsVal s < 65536) :
    parseU16 s = some (digitsVal s) := by
  match s with
  | c :: r =>
    have hc : (charDigit? c).isSome = true := hd c (List.mem_cons_self c r)
    have hcp : c ≠ '+' := by
      intro hcp
      rw [hcp] at hc
      simp [charDigit?] at hc
    show (if ((if c = '+' then r else c :: r) : List Char) = [] then none
          else parseDigits 0 (if c = '+' then r else c :: r)) = _
    rw [if_neg hcp]
    rw [if_neg (by simp : ¬(c :: r : List Char) = [])]
    rw [digitsVal_eq_valFrom]
    exact parseDigits_eq_some (c :: r) 0 hd (by rwa [digitsVal_eq_valFrom] at hb)

theorem parseU16_plus_digits (s : List Char) (h0 : s ≠ [])
    (hd : ∀ c ∈ s, (charDigit? c).isSome = true)
    (hb : digitsVal s < 65536) :
    parseU16 ('+' :: s) = some (digitsVal s) := by
  show (if ((if ('+' : Char) = '+' then s else '+' :: s) : List Char) = [] then none
        else parseDigits 0 (if ('+' : Char) = '+' then s else '+' :: s)) = _
  rw [if_pos rfl, if_neg h0, digitsVal_eq_valFrom]
  exact parseDigits_eq_some s 0 hd (by rwa [digitsVal_eq_valFrom] at hb)

theorem parseU16_none_of_hyphen (s : List Char) (h : '-' ∈ s) : parseU16 s = none := by
  match s with
  | [] => simp at h
  | c :: r =>
    show (if ((if c = '+' then r else c :: r) : List Char) = [] then none
          else parseDigits 0 (if c = '+' then r else c :: r)) = _
    by_cases hc : c = '+'
    · rw [if_pos hc]
      have hr : '-' ∈ r := by
        rcases List.mem_cons.mp h with h' | h'
        · rw [hc] at h'
          exact absurd h' (by decide)
        · exact h'
      have hrne : r ≠ [] := List.ne_nil_of_mem hr
      rw [if_neg hrne]
      exact parseDigits_none_of_bad r 0 '-' hr (by decide)
    · rw [if_neg hc]
      rw [if_neg (by simp : ¬(c :: r : List Char) = [])]
      exact parseDigits_none_of_bad (c :: r) 0 '-' h (by decide)

theorem parseU16_none_of_mem (c : Char) (r : List Char) (x : Char)
    (hc : (charDigit? c).isSome = true) (hx : x ∈ c :: r)
    (hbad : charDigit? x = none) : parseU16 (c :: r) = none := by
  have hcp : c ≠ '+' := by
    intro hcp
    rw [hcp] at hc
    simp [charDigit?] at hc
  show (if ((if c = '+' then r else c :: r) : List Char) = [] then none
        else parseDigits 0 (if c = '+' then r else c :: r)) = _
  rw [if_neg hcp]
  rw [if_neg (by simp : ¬(c :: r : List Char) = [])]
  exact parseDigits_none_of_bad (c :: r) 0 x hx hbad

/-! ### Decimal formatting lemmas -/

theorem toDigits_all_digits (n : Nat) : ∀ c ∈ toDigits n, (charDigit? c).isSome = true := by
  induction n using Nat.strong_induction_on with
  | _ n ih =>
    rw [toDigits]
    by_cases h : n < 10
    · rw [if_pos h]
      intro c hc
      rw [List.mem_singleton] at hc
      subst hc
      rw [charDigit?_digitChar h]
      rfl
    · rw [if_neg h]
      intro c hc
      rcases List.mem_append.mp hc with hc | hc
      · exact ih (n / 10) (Nat.div_lt_self (by omega) (by omega)) c hc
      · rw [List.mem_singleton] at hc
        subst hc
        rw [charDigit?_digitChar (Nat.mod_lt n (by omega))]
        rfl

theorem toDigits_ne_nil (n : Nat) : toDigits n ≠ [] := by
  rw [toDigits]
  split <;> simp

theorem digitsVal_toDigits (n : Nat) : digitsVal (toDigits n) = n := by
  induction n using Nat.strong_induction_on with
  | _ n ih =>
    rw [toDigits]
    by_cases h : n < 10
    · rw [if_pos h]
      rw [digitsVal_eq_valFrom, valFrom_cons]
      show valFrom (0 * 10 + (charDigit? (digitChar n)).getD 0) [] = n
      rw [charDigit?_digitChar h]
      simp [valFrom]
    · rw [if_neg h]
      rw [digitsVal_eq_valFrom, valFrom_append]
      have hrec : valFrom 0 (toDigits (n / 10)) = n / 10 := by
        rw [← digitsVal_eq_valFrom]
        exact ih (n / 10) (Nat.div_lt_self (by omega) (by omega))
      rw [hrec, valFrom_cons]
      show valFrom (n / 10 * 10 + (charDigit? (digitChar (n % 10))).getD 0) [] = n
      rw [charDigit?_digitChar (Nat.mod_lt n (by omega))]
      show n / 10 * 10 + n % 10 = n
      omega

theorem parseU16_toDigits {n : Nat} (h : n < 65536) : parseU16 (toDigits n) = some n := by
  have := parseU16_digits (toDigits n) (toDigits_ne_nil n) (toDigits_all_digits n)
    (by rw [digitsVal_toDigits]; exact h)
  rwa [digitsVal_toDigits] at this

theorem digitsVal_pos_of_head {c : Char} {s : List Char} {d : Nat}
    (hc : charDigit? c = some d) (hd : d ≠ 0) : 0 < digitsVal (c :: s) := by
  rw [digitsVal_eq_valFrom, valFrom_cons, hc]
  calc 0 < 0 * 10 + d := by omega
    _ ≤ _ := valFrom_ge _ s

/-- `s` is a decimal numeral in canonical form: no leading zero unless `s`
is just `"0"`. -/
def noLeadingZero (s : List Char) : Prop := 2 ≤ s.length → s.head? ≠ some '0'

instance (s : List Char) : Decidable (noLeadingZero s) := by
  unfold noLeadingZero; infer_instance

theorem toDigits_digitsVal (s : List Char) (h0 : s ≠ [])
    (hd : ∀ c ∈ s, (charDigit? c).isSome = true)
    (hz : noLeadingZero s) : toDigits (digitsVal s) = s := by
  induction s using List.reverseRecOn with
  | nil => exact absurd rfl h0
  | append_singleton l a ih =>
    obtain ⟨da, hda⟩ := Option.isSome_iff_exists.mp (hd a (by simp))
    have hda10 : da < 10 := charDigit?_lt hda
    rw [digitsVal_eq_valFrom, valFrom_append, valFrom_cons]
    show toDigits (valFrom (valFrom 0 l * 10 + (charDigit? a).getD 0) []) = l ++ [a]
    rw [hda]
    show toDigits (valFrom 0 l * 10 + da) = l ++ [a]
    cases l with
    | nil =>
      show toDigits (valFrom 0 [] * 10 + da) = [a]
      rw [show valFrom 0 [] = 0 from rfl]
      rw [show (0 : Nat) * 10 + da = da by omega]
      rw [toDigits, if_pos hda10, digitChar_charDigit? hda]
    | cons c l' =>
      obtain ⟨dc, hdc⟩ := Option.isSome_iff_exists.mp (hd c (by simp))
      have hc0 : c ≠ '0' := by
        have hlen : 2 ≤ (c :: l' ++ [a]).length := by
          simp only [List.cons_append, List.length_cons, List.length_append]
          omega
        have := hz hlen
        simpa using this
      have hdc0 : dc ≠ 0 := by
        intro hdc0
        apply hc0
        have h1 := digitChar_charDigit? hdc
        rw [hdc0] at h1
        exact h1.symm
      have hpos : 0 < valFrom 0 (c :: l') := by
        rw [← digitsVal_eq_valFrom]
        exact digitsVal_pos_of_head hdc hdc0
      have hge : ¬ valFrom 0 (c :: l') * 10 + da < 10 := by omega
      rw [toDigits, if_neg hge]
      have hdiv : (valFrom 0 (c :: l') * 10 + da) / 10 = valFrom 0 (c :: l') := by omega
      have hmod : (valFrom 0 (c :: l') * 10 + da) % 10 = da := by omega
      rw [hdiv, hmod, digitChar_charDigit? hda]
      have hrec : toDigits (valFrom 0 (c :: l')) = c :: l' := by
        rw [← digitsVal_eq_valFrom]
        refine ih (by simp) (fun x hx => hd x (List.mem_append_left _ hx)) ?_
        intro hlen
        simpa using hc0
      rw [hrec]

/-! ### The §4.1 grammar and the parse/format round trip -/

/-- A numeric component acceptable to the parser: non-empty decimal digits
whose value fits in 16 bits. -/
def numOk (s : List Char) : Prop :=
  s ≠ [] ∧ (∀ c ∈ s, (charDigit? c).isSome = true) ∧ digitsVal s < 65536

instance (s : List Char) : Decidable (numOk s) := by
  unfold numOk; infer_instance

/-- Grammar side condition on the optional pre-release segment: the
pre-release number is a numeral and the stream contains no `.`. -/
def preOkAny : Option (List Char × List Char) → Prop
  | none => True
  | some (st, n) => numOk n ∧ '.' ∉ st

instance (q : Option (List Char × List Char)) : Decidable (preOkAny q) := by
  unfold preOkAny
  split <;> infer_instance

/-- Rendering of the optional pre-release segment: `-<stream>.<prenum>`. -/
def preStr : Option (List Char × List Char) → List Char
  | none => []
  | some (st, n) => '-' :: st ++ '.' :: n

/-- Rendering of the optional build segment: `+<build>`. -/
def buildStr : Option (List Char) → List Char
  | none => []
  | some b => '+' :: b

/-- The §4.1 grammar, stated from the spec's words: `s` decomposes as
`<major>.<minor>.<patch>[-<stream>.<prenum>][+<build>]`, where the four
numerals are base-10 unsigned integers fitting 16 bits (leading zeros
allowed), the stream contains no `.`, and the build metadata is the
arbitrary remainder after the `+`. -/
def grammarAccepts (s maj minr pat : List Char)
    (pre : Option (List Char × List Char)) (build : Option (List Char)) : Prop :=
  numOk maj ∧ numOk minr ∧ numOk pat ∧ preOkAny pre ∧
  s = maj ++ '.' :: minr ++ '.' :: pat ++ preStr pre ++ buildStr build

instance (s maj minr pat : List Char) (pre : Option (List Char × List Char))
    (build : Option (List Char)) :
    Decidable (grammarAccepts s maj minr pat pre build) := by
  unfold grammarAccepts; infer_instance

/-- The `Version` denoted by a §4.1 decomposition. -/
def versionOf (maj minr pat : List Char) (pre : Option (List Char × List Char))
    (build : Option (List Char)) : Version :=
  ⟨⟨digitsVal maj, digitsVal minr, digitsVal pat⟩,
   pre.map fun q => ⟨q.1, digitsVal q.2⟩, build⟩

/-- A §4.1 string after normalizing numeric leading zeros away: each
numeral is replaced by the canonical decimal rendering of its value;
stream and build metadata are untouched. -/
def normalString (maj minr pat : List Char)
    (pre : Option (List Char × List Char)) (build : Option (List Char)) : List Char :=
  toDigits (digitsVal maj) ++ '.' :: toDigits (digitsVal minr) ++ '.' ::
    toDigits (digitsVal pat)
    ++ preStr (pre.map fun q => (q.1, toDigits (digitsVal q.2)))
    ++ buildStr build

/-- The build string contains no `-`. -/
def buildNoHyphen : Option (List Char) → Prop
  | none => True
  | some b => '-' ∉ b

instance (q : Option (List Char)) : Decidable (buildNoHyphen q) := by
  unfold buildNoHyphen
  split <;> infer_instance

/-- The final step of `Version::parse`'s pre-release branch: parse the
pre-release number with optional build, and the patch component
(used to state evaluation lemmas about `parse`). -/
def preFinish (M m : Nat) (stream verS patchS : List Char) : Option Version :=
  match Version.parse_with_build verS, parseU16 patchS with
  | some (v, build), some patch => some ⟨⟨M, m, patch⟩, some ⟨stream, v⟩, build⟩
  | _, _ => none

/-- The patch/pre-release tail of `Version::parse`, after major and minor
have been consumed (used to state evaluation lemmas about `parse`). -/
def parseTail (M m : Nat) (r2 : List Char) : Option Version :=
  match splitOnce '-' r2 with
  | some (patchS, preS) =>
    match splitOnce '.' preS with
    | none => none
    | some (stream, verS) => preFinish M m stream verS patchS
  | none =>
    match Version.parse_with_build r2 with
    | some (patch, build) => some ⟨⟨M, m, patch⟩, none, build⟩
    | none => none

theorem preFinish_some {verS patchS : List Char} {v patch : Nat}
    {build : Option (List Char)} (M m : Nat) (stream : List Char)
    (hv : Version.parse_with_build verS = some (v, build))
    (hp : parseU16 patchS = some patch) :
    preFinish M m stream verS patchS =
      some ⟨⟨M, m, patch⟩, some ⟨stream, v⟩, build⟩ := by
  unfold preFinish
  rw [hv, hp]

theorem preFinish_none_right {patchS : List Char} (M m : Nat)
    (stream verS : List Char) (h : parseU16 patchS = none) :
    preFinish M m stream verS patchS = none := by
  unfold preFinish
  rw [h]
  cases hv : Version.parse_with_build verS with
  | none => rfl
  | some p => cases p; rfl

theorem preFinish_none_left {verS : List Char} (M m : Nat)
    (stream patchS : List Char) (h : Version.parse_with_build verS = none) :
    preFinish M m stream verS patchS = none := by
  unfold preFinish
  rw [h]

theorem Version.parse_eq_parseTail (maj minr r2 : List Char)
    (hmaj : numOk maj) (hminr : numOk minr) :
    Version.parse (maj ++ '.' :: (minr ++ '.' :: r2)) =
      parseTail (digitsVal maj) (digitsVal minr) r2 := by
  have hd1 : ('.' : Char) ∉ maj := not_mem_of_digits hmaj.2.1 (by decide)
  have hd2 : ('.' : Char) ∉ minr := not_mem_of_digits hminr.2.1 (by decide)
  simp only [Version.parse,
    splitOnce_first '.' maj (minr ++ '.' :: r2) hd1,
    parseU16_digits maj hmaj.1 hmaj.2.1 hmaj.2.2,
    splitOnce_first '.' minr r2 hd2,
    parseU16_digits minr hminr.1 hminr.2.1 hminr.2.2,
    parseTail, preFinish]

theorem Version.parse_with_build_digits (n : List Char) (hn : numOk n) :
    Version.parse_with_build n = some (digitsVal n, none) := by
  have hp : ('+' : Char) ∉ n := not_mem_of_digits hn.2.1 (by decide)
  simp only [Version.parse_with_build, splitOnce_eq_none '+' n hp,
    parseU16_digits n hn.1 hn.2.1 hn.2.2, Option.map_some']

theorem Version.parse_with_build_digits_build (n b : List Char) (hn : numOk n) :
    Version.parse_with_build (n ++ '+' :: b) = some (digitsVal n, some b) := by
  have hp : ('+' : Char) ∉ n := not_mem_of_digits hn.2.1 (by decide)
  simp only [Version.parse_with_build, splitOnce_first '+' n b hp,
    parseU16_digits n hn.1 hn.2.1 hn.2.2, Option.map_some']

theorem Version.parse_with_build_plus (N : List Char) :
    Version.parse_with_build ('+' :: N) = none := by
  simp only [Version.parse_with_build, splitOnce_cons_self]
  rfl

theorem parseTail_stable_nobuild (M m : Nat) (pat : List Char) (hpat : numOk pat) :
    parseTail M m pat = some ⟨⟨M, m, digitsVal pat⟩, none, none⟩ := by
  have hdm : ('-' : Char) ∉ pat := not_mem_of_digits hpat.2.1 (by decide)
  simp only [parseTail, splitOnce_eq_none '-' pat hdm,
    Version.parse_with_build_digits pat hpat]

theorem parseTail_stable_build (M m : Nat) (pat b : List Char) (hpat : numOk pat)
    (hb : ('-' : Char) ∉ b) :
    parseTail M m (pat ++ '+' :: b) = some ⟨⟨M, m, digitsVal pat⟩, none, some b⟩ := by
  have hdm : ('-' : Char) ∉ pat ++ '+' :: b := by
    intro hm
    rcases List.mem_append.mp hm with hm | hm
    · exact not_mem_of_digits hpat.2.1 (by decide) hm
    · rcases List.mem_cons.mp hm with hm | hm
      · exact absurd hm (by decide)
      · exact hb hm
  simp only [parseTail, splitOnce_eq_none '-' _ hdm,
    Version.parse_with_build_digits_build pat b hpat]

theorem parseTail_stable_build_hyphen (M m : Nat) (pat b : List Char)
    (hpat : numOk pat) (hb : ('-' : Char) ∈ b) :
    parseTail M m (pat ++ '+' :: b) = none := by
  obtain ⟨l, r, hsplit⟩ := splitOnce_mem '-' b hb
  have hdm : ('-' : Char) ∉ pat := not_mem_of_digits hpat.2.1 (by decide)
  have hplus : splitOnce '-' ('+' :: b) = some ('+' :: l, r) := by
    rw [splitOnce, if_neg (by decide : ¬('+' : Char) = '-'), hsplit]
  have hmain : splitOnce '-' (pat ++ '+' :: b) = some (pat ++ '+' :: l, r) := by
    rw [splitOnce_append_left '-' pat ('+' :: b) hdm, hplus]
    rfl
  have hpu : parseU16 (pat ++ '+' :: l) = none := by
    obtain ⟨c, pr, hc⟩ : ∃ c pr, pat = c :: pr := by
      cases pat with
      | nil => exact absurd rfl hpat.1
      | cons c pr => exact ⟨c, pr, rfl⟩
    rw [hc, List.cons_append]
    exact parseU16_none_of_mem c (pr ++ '+' :: l) '+'
      (hpat.2.1 c (by rw [hc]; exact List.mem_cons_self c pr))
      (by simp) (by decide)
  simp only [parseTail, hmain]
  cases hps : splitOnce '.' r with
  | none => rfl
  | some q =>
    cases q with
    | mk stream verS =>
      show preFinish M m stream verS (pat ++ '+' :: l) = none
      exact preFinish_none_right M m stream verS hpu

theorem parseTail_pre (M m : Nat) (pat st n : List Char)
    (build : Option (List Char)) (hpat : numOk pat) (hst : ('.' : Char) ∉ st)
    (hn : numOk n) :
    parseTail M m (pat ++ '-' :: (st ++ '.' :: (n ++ buildStr build))) =
      some ⟨⟨M, m, digitsVal pat⟩, some ⟨st, digitsVal n⟩, build⟩ := by
  have hdm : ('-' : Char) ∉ pat := not_mem_of_digits hpat.2.1 (by decide)
  have hbuild : Version.parse_with_build (n ++ buildStr build) =
      some (digitsVal n, build) := by
    cases build with
    | none =>
      rw [show buildStr none = [] from rfl, List.append_nil]
      exact Version.parse_with_build_digits n hn
    | some b =>
      rw [show buildStr (some b) = '+' :: b from rfl]
      exact Version.parse_with_build_digits_build n b hn
  simp only [parseTail,
    splitOnce_first '-' pat (st ++ '.' :: (n ++ buildStr build)) hdm,
    splitOnce_first '.' st (n ++ buildStr build) hst]
  exact preFinish_some M m st hbuild (parseU16_digits pat hpat.1 hpat.2.1 hpat.2.2)

theorem parseTail_pre_plusnum (M m : Nat) (pat st N : List Char)
    (hpat : numOk pat) (hst : ('.' : Char) ∉ st) :
    parseTail M m (pat ++ '-' :: (st ++ '.' :: ('+' :: N))) = none := by
  have hdm : ('-' : Char) ∉ pat := not_mem_of_digits hpat.2.1 (by decide)
  simp only [parseTail,
    splitOnce_first '-' pat (st ++ '.' :: ('+' :: N)) hdm,
    splitOnce_first '.' st ('+' :: N) hst]
  exact preFinish_none_left M m st pat (Version.parse_with_build_plus N)

theorem Version.format_versionOf (maj minr pat : List Char)
    (pre : Option (List Char × List Char)) (build : Option (List Char)) :
    (versionOf maj minr pat pre build).format =
      normalString maj minr pat pre build := by
  unfold versionOf Version.format MainVersion.format normalString
  cases pre with
  | none =>
    cases build with
    | none => simp [preStr, buildStr]
    | some b => simp [preStr, buildStr]
  | some q =>
    cases q with
    | mk st n =>
      cases build with
      | none => simp [preStr, buildStr]
      | some b => simp [preStr, buildStr]

theorem normalString_canonical (maj minr pat : List Char)
    (pre : Option (List Char × List Char)) (build : Option (List Char))
    (hmaj : numOk maj) (hminr : numOk minr) (hpat : numOk pat)
    (hpre : preOkAny pre)
    (hzmaj : noLeadingZero maj) (hzminr : noLeadingZero minr)
    (hzpat : noLeadingZero pat)
    (hzpre : ∀ st n, pre = some (st, n) → noLeadingZero n) :
    normalString maj minr pat pre build =
      maj ++ '.' :: minr ++ '.' :: pat ++ preStr pre ++ buildStr build := by
  unfold normalString
  rw [toDigits_digitsVal maj hmaj.1 hmaj.2.1 hzmaj,
    toDigits_digitsVal minr hminr.1 hminr.2.1 hzminr,
    toDigits_digitsVal pat hpat.1 hpat.2.1 hzpat]
  cases pre with
  | none => rfl
  | some q =>
    cases q with
    | mk st n =>
      simp only [Option.map_some']
      rw [toDigits_digitsVal n hpre.1.1 hpre.1.2.1 (hzpre st n rfl)]

/-- C5 (amended): for every string accepted by the §4.1 grammar (numerals
may carry leading zeros): if the decomposition carries a pre-release
segment or its build metadata (when present) contains no `-`, then
`Version::parse` succeeds with exactly the decomposed version and
`Display` reproduces the string after normalizing numeric leading zeros
away — in particular byte for byte when the numerals are already canonical
— while when there is no pre-release segment and the build metadata
contains a `-`, `Version::parse` rejects the string instead (the first
`-` is mistaken for a pre-release separator), so the round trip fails
there. -/
theorem Version.parse_format_round_trip (s maj minr pat : List Char)
    (pre : Option (List Char × List Char)) (build : Option (List Char))
    (hg : grammarAccepts s maj minr pat pre build) :
    ((pre ≠ none ∨ buildNoHyphen build) →
      Version.parse s = some (versionOf maj minr pat pre build) ∧
      (versionOf maj minr pat pre build).format =
        normalString maj minr pat pre build ∧
      (noLeadingZero maj → noLeadingZero minr → noLeadingZero pat →
        (∀ st n, pre = some (st, n) → noLeadingZero n) →
        (versionOf maj minr pat pre build).format = s)) ∧
    (pre = none → ∀ b, build = some b → ('-' : Char) ∈ b →
      Version.parse s = none) := by
  obtain ⟨hmaj, hminr, hpat, hpre, hs⟩ := hg
  have hnorm : maj ++ '.' :: minr ++ '.' :: pat ++ preStr pre ++ buildStr build =
      maj ++ '.' :: (minr ++ '.' :: (pat ++ (preStr pre ++ buildStr build))) := by
    simp [List.cons_append, List.append_assoc]
  constructor
  · intro hcase
    refine ⟨?_, Version.format_versionOf maj minr pat pre build,
      fun hzmaj hzminr hzpat hzpre => ?_⟩
    · rw [hs, hnorm, Version.parse_eq_parseTail _ _ _ hmaj hminr]
      cases pre with
      | none =>
        cases build with
        | none =>
          simp only [preStr, buildStr, List.nil_append, List.append_nil, versionOf,
            Option.map_none']
          exact parseTail_stable_nobuild _ _ pat hpat
        | some b =>
          have hb : ('-' : Char) ∉ b := by
            rcases hcase with h | h
            · exact absurd rfl h
            · exact h
          simp only [preStr, buildStr, List.nil_append, versionOf, Option.map_none']
          exact parseTail_stable_build _ _ pat b hpat hb
      | some q =>
        cases q with
        | mk st n =>
          simp only [preStr, buildStr, versionOf, Option.map_some', List.cons_append,
            List.append_assoc]
          exact parseTail_pre _ _ pat st n build hpat hpre.2 hpre.1
    · rw [Version.format_versionOf maj minr pat pre build, hs]
      exact normalString_canonical maj minr pat pre build hmaj hminr hpat hpre
        hzmaj hzminr hzpat hzpre
  · intro hpre0 b hb hmem
    subst hpre0
    subst hb
    rw [hs, hnorm, Version.parse_eq_parseTail _ _ _ hmaj hminr]
    simp only [preStr, buildStr, List.nil_append]
    exact parseTail_stable_build_hyphen _ _ pat b hpat hmem

/-- C5 counterexample: `"1.2.3+a-b"` is accepted by the §4.1 grammar in
canonical form (stable triple with build metadata `a-b`), yet
`Version::parse` returns `none` on it, so the round trip of the claim as
stated fails. -/
theorem Version.round_trip_cex :
    grammarAccepts ("1.2.3+a-b".toList) ("1".toList) ("2".toList) ("3".toList)
      none (some ("a-b".toList)) ∧
    Version.parse ("1.2.3+a-b".toList) = none :=
  ⟨by decide, by decide⟩

/-- Witness for C5 at the concrete string `"7.10.3-rc.11+bld.1"`. -/
theorem Version.parse_format_round_trip_check :
    grammarAccepts ("7.10.3-rc.11+bld.1".toList) ("7".toList) ("10".toList)
      ("3".toList) (some ("rc".toList, "11".toList)) (some ("bld.1".toList)) ∧
    (((some ("rc".toList, "11".toList) : Option (List Char × List Char)) ≠ none ∨
        buildNoHyphen (some ("bld.1".toList))) →
      Version.parse ("7.10.3-rc.11+bld.1".toList) =
        some (versionOf ("7".toList) ("10".toList) ("3".toList)
          (some ("rc".toList, "11".toList)) (some ("bld.1".toList))) ∧
      (versionOf ("7".toList) ("10".toList) ("3".toList)
          (some ("rc".toList, "11".toList)) (some ("bld.1".toList))).format =
        normalString ("7".toList) ("10".toList) ("3".toList)
          (some ("rc".toList, "11".toList)) (some ("bld.1".toList)) ∧
      (noLeadingZero ("7".toList) → noLeadingZero ("10".toList) →
        noLeadingZero ("3".toList) →
        (∀ st n, (some ("rc".toList, "11".toList) :
            Option (List Char × List Char)) = some (st, n) → noLeadingZero n) →
        (versionOf ("7".toList) ("10".toList) ("3".toList)
            (some ("rc".toList, "11".toList)) (some ("bld.1".toList))).format =
          ("7.10.3-rc.11+bld.1".toList))) ∧
    ((some ("rc".toList, "11".toList) : Option (List Char × List Char)) = none →
      ∀ b, (some ("bld.1".toList) : Option (List Char)) = some b →
        ('-' : Char) ∈ b → Version.parse ("7.10.3-rc.11+bld.1".toList) = none) :=
  ⟨by decide,
    (Version.parse_format_round_trip ("7.10.3-rc.11+bld.1".toList) ("7".toList)
      ("10".toList) ("3".toList) (some ("rc".toList, "11".toList))
      (some ("bld.1".toList)) (by decide)).1,
    (Version.parse_format_round_trip ("7.10.3-rc.11+bld.1".toList) ("7".toList)
      ("10".toList) ("3".toList) (some ("rc".toList, "11".toList))
      (some ("bld.1".toList)) (by decide)).2⟩

/-- C6 (amended): a valid main triple followed by `+` and a remainder parses
to that triple with the remainder as build metadata whenever the remainder
contains no `-`; when the remainder does contain a `-`, the `-` is taken for
a pre-release separator, the patch text then contains the `+`, and
`Version::parse` returns `none` instead. -/
theorem Version.parse_stable_build (maj minr pat b : List Char)
    (hmaj : numOk maj) (hminr : numOk minr) (hpat : numOk pat) :
    (('-' : Char) ∉ b →
      Version.parse (maj ++ '.' :: (minr ++ '.' :: (pat ++ '+' :: b))) =
        some ⟨⟨digitsVal maj, digitsVal minr, digitsVal pat⟩, none, some b⟩) ∧
    (('-' : Char) ∈ b →
      Version.parse (maj ++ '.' :: (minr ++ '.' :: (pat ++ '+' :: b))) = none) := by
  constructor
  · intro hb
    rw [Version.parse_eq_parseTail _ _ _ hmaj hminr]
    exact parseTail_stable_build _ _ pat b hpat hb
  · intro hb
    rw [Version.parse_eq_parseTail _ _ _ hmaj hminr]
    exact parseTail_stable_build_hyphen _ _ pat b hpat hb

/-- C6 counterexample: `"1.2.3+a-b"` — a valid main triple, a `+`, and a
remainder containing `-` — is rejected by `Version::parse`, contradicting
the claim that every such string is accepted. -/
theorem Version.parse_stable_build_cex :
    Version.parse ("1.2.3+a-b".toList) = none := by decide

/-- Witness for C6 at `"1.2.3+a.b"` (build metadata with no `-`). -/
theorem Version.parse_stable_build_check :
    numOk ("1".toList) ∧ numOk ("2".toList) ∧ numOk ("3".toList) ∧
    ((('-' : Char) ∉ ("a.b".toList) →
      Version.parse (("1".toList) ++ '.' :: (("2".toList) ++ '.' ::
          (("3".toList) ++ '+' :: ("a.b".toList)))) =
        some ⟨⟨digitsVal ("1".toList), digitsVal ("2".toList),
          digitsVal ("3".toList)⟩, none, some ("a.b".toList)⟩) ∧
    (('-' : Char) ∈ ("a.b".toList) →
      Version.parse (("1".toList) ++ '.' :: (("2".toList) ++ '.' ::
          (("3".toList) ++ '+' :: ("a.b".toList)))) = none)) :=
  ⟨by decide, by decide, by decide,
    Version.parse_stable_build ("1".toList) ("2".toList) ("3".toList) ("a.b".toList)
      (by decide) (by decide) (by decide)⟩

theorem Version.parse_with_build_hyphen (N : List Char)
    (h1 : ('-' : Char) ∈ N) (h2 : ('+' : Char) ∉ N) :
    Version.parse_with_build N = none := by
  simp only [Version.parse_with_build, splitOnce_eq_none '+' N h2,
    parseU16_none_of_hyphen N h1, Option.map_none']

theorem Version.parse_with_build_dot (D E : List Char)
    (hD : numOk D) (hE : ('+' : Char) ∉ E) :
    Version.parse_with_build (D ++ '.' :: E) = none := by
  have hp : ('+' : Char) ∉ D ++ '.' :: E := by
    intro hm
    rcases List.mem_append.mp hm with hm | hm
    · exact not_mem_of_digits hD.2.1 (by decide) hm
    · rcases List.mem_cons.mp hm with hm | hm
      · exact absurd hm (by decide)
      · exact hE hm
  obtain ⟨c, pr, hc⟩ : ∃ c pr, D = c :: pr := by
    cases D with
    | nil => exact absurd rfl hD.1
    | cons c pr => exact ⟨c, pr, rfl⟩
  have hpu : parseU16 (D ++ '.' :: E) = none := by
    rw [hc, List.cons_append]
    exact parseU16_none_of_mem c (pr ++ '.' :: E) '.'
      (hD.2.1 c (by rw [hc]; exact List.mem_cons_self c pr))
      (by simp) (by decide)
  simp only [Version.parse_with_build, splitOnce_eq_none '+' _ hp, hpu,
    Option.map_none']

theorem parseTail_stable_bad (M m : Nat) (r2 : List Char)
    (h1 : splitOnce '-' r2 = none)
    (h2 : Version.parse_with_build r2 = none) :
    parseTail M m r2 = none := by
  simp only [parseTail, h1, h2]

theorem parseTail_pre_badver (M m : Nat) (pat st verS : List Char)
    (hpat : numOk pat) (hst : ('.' : Char) ∉ st)
    (hv : Version.parse_with_build verS = none) :
    parseTail M m (pat ++ '-' :: (st ++ '.' :: verS)) = none := by
  have hdm : ('-' : Char) ∉ pat := not_mem_of_digits hpat.2.1 (by decide)
  simp only [parseTail,
    splitOnce_first '-' pat (st ++ '.' :: verS) hdm,
    splitOnce_first '.' st verS hst]
  exact preFinish_none_left M m st pat hv

/-- C7 (amended): `Version::parse` returns `none` when the major or minor
component contains a `-`, when the pre-release number contains a `-` or an
interior `.` or begins with `+` (the `+` is consumed as the build-metadata
separator first), and when the patch slot of a hyphen-free remainder
contains an interior `.` or begins with `+`; however, a single leading `+`
on the major or on the minor component is accepted by Rust's
unsigned-integer parsing with the value unchanged, so e.g. `1.+2.3` parses
as `1.2.3` rather than failing.  (The failure shapes place no `+` earlier
in the affected slot and, for the stable patch shapes, no `-` after it,
since such characters re-route parsing into the build or pre-release
reading.) -/
theorem Version.parse_signed_numerics (A B C St M N D E R : List Char)
    (hA : numOk A) (hB : numOk B) (hC : numOk C)
    (hSt : ('.' : Char) ∉ St) (hM1 : ('-' : Char) ∈ M) (hM2 : ('.' : Char) ∉ M)
    (hN1 : ('-' : Char) ∈ N) (hN2 : ('+' : Char) ∉ N)
    (hD : numOk D) (hE1 : ('+' : Char) ∉ E) (hE2 : ('-' : Char) ∉ E) :
    Version.parse (('+' :: A) ++ '.' :: (B ++ '.' :: C)) =
      some ⟨⟨digitsVal A, digitsVal B, digitsVal C⟩, none, none⟩ ∧
    Version.parse (A ++ '.' :: (('+' :: B) ++ '.' :: C)) =
      some ⟨⟨digitsVal A, digitsVal B, digitsVal C⟩, none, none⟩ ∧
    Version.parse (M ++ '.' :: R) = none ∧
    Version.parse (A ++ '.' :: (M ++ '.' :: R)) = none ∧
    Version.parse (A ++ '.' :: (B ++ '.' ::
      (C ++ '-' :: (St ++ '.' :: N)))) = none ∧
    Version.parse (A ++ '.' :: (B ++ '.' ::
      (C ++ '-' :: (St ++ '.' :: (D ++ '.' :: E))))) = none ∧
    Version.parse (A ++ '.' :: (B ++ '.' ::
      (C ++ '-' :: (St ++ '.' :: ('+' :: R))))) = none ∧
    Version.parse (A ++ '.' :: (B ++ '.' :: (D ++ '.' :: E))) = none ∧
    Version.parse (A ++ '.' :: (B ++ '.' :: ('+' :: E))) = none := by
  have hdA : ('.' : Char) ∉ A := not_mem_of_digits hA.2.1 (by decide)
  have hdB : ('.' : Char) ∉ B := not_mem_of_digits hB.2.1 (by decide)
  have hdmC : ('-' : Char) ∉ C := not_mem_of_digits hC.2.1 (by decide)
  have hdplusB : ('.' : Char) ∉ '+' :: B := by
    intro hm
    rcases List.mem_cons.mp hm with hm | hm
    · exact absurd hm (by decide)
    · exact hdB hm
  have hdplusA : ('.' : Char) ∉ '+' :: A := by
    intro hm
    rcases List.mem_cons.mp hm with hm | hm
    · exact absurd hm (by decide)
    · exact hdA hm
  refine ⟨?_, ?_, ?_, ?_, ?_, ?_, ?_, ?_, ?_⟩
  · simp only [Version.parse,
      splitOnce_first '.' ('+' :: A) (B ++ '.' :: C) hdplusA,
      parseU16_plus_digits A hA.1 hA.2.1 hA.2.2,
      splitOnce_first '.' B C hdB,
      parseU16_digits B hB.1 hB.2.1 hB.2.2,
      splitOnce_eq_none '-' C hdmC,
      Version.parse_with_build_digits C hC]
  · simp only [Version.parse,
      splitOnce_first '.' A (('+' :: B) ++ '.' :: C) hdA,
      parseU16_digits A hA.1 hA.2.1 hA.2.2,
      splitOnce_first '.' ('+' :: B) C hdplusB,
      parseU16_plus_digits B hB.1 hB.2.1 hB.2.2,
      splitOnce_eq_none '-' C hdmC,
      Version.parse_with_build_digits C hC]
  · simp only [Version.parse,
      splitOnce_first '.' M R hM2,
      parseU16_none_of_hyphen M hM1]
  · simp only [Version.parse,
      splitOnce_first '.' A (M ++ '.' :: R) hdA,
      parseU16_digits A hA.1 hA.2.1 hA.2.2,
      splitOnce_first '.' M R hM2,
      parseU16_none_of_hyphen M hM1]
  · rw [Version.parse_eq_parseTail _ _ _ hA hB]
    exact parseTail_pre_badver _ _ C St N hC hSt
      (Version.parse_with_build_hyphen N hN1 hN2)
  · rw [Version.parse_eq_parseTail _ _ _ hA hB]
    exact parseTail_pre_badver _ _ C St (D ++ '.' :: E) hC hSt
      (Version.parse_with_build_dot D E hD hE1)
  · rw [Version.parse_eq_parseTail _ _ _ hA hB]
    exact parseTail_pre_plusnum _ _ C St R hC hSt
  · rw [Version.parse_eq_parseTail _ _ _ hA hB]
    refine parseTail_stable_bad _ _ _ ?_ (Version.parse_with_build_dot D E hD hE1)
    apply splitOnce_eq_none
    intro hm
    rcases List.mem_append.mp hm with hm | hm
    · exact not_mem_of_digits hD.2.1 (by decide) hm
    · rcases List.mem_cons.mp hm with hm | hm
      · exact absurd hm (by decide)
      · exact hE2 hm
  · rw [Version.parse_eq_parseTail _ _ _ hA hB]
    refine parseTail_stable_bad _ _ _ ?_ (Version.parse_with_build_plus E)
    apply splitOnce_eq_none
    intro hm
    rcases List.mem_cons.mp hm with hm | hm
    · exact absurd hm (by decide)
    · exact hE2 hm

/-- C7 counterexample: `"1.+2.3"` — minor component with a leading `+` —
parses successfully as `1.2.3`, contradicting the claim that any leading
`+` in a numeric component makes `Version::parse` return `none`. -/
theorem Version.parse_plus_minor_cex :
    Version.parse ("1.+2.3".toList) =
      some ⟨⟨1, 2, 3⟩, none, none⟩ := by decide

/-- Witness for C7 with components `1`, `2`, `3`, stream `rc`, bad minor
`-2`, bad pre-release number `4-5`, digit run `7`, tail `8`, and
remainder `9`. -/
theorem Version.parse_signed_numerics_check :
    numOk ("1".toList) ∧ numOk ("2".toList) ∧ numOk ("3".toList) ∧
    ('.' : Char) ∉ ("rc".toList) ∧ ('-' : Char) ∈ ("-2".toList) ∧
    ('.' : Char) ∉ ("-2".toList) ∧ ('-' : Char) ∈ ("4-5".toList) ∧
    ('+' : Char) ∉ ("4-5".toList) ∧ numOk ("7".toList) ∧
    ('+' : Char) ∉ ("8".toList) ∧ ('-' : Char) ∉ ("8".toList) ∧
    (Version.parse (('+' :: ("1".toList)) ++ '.' :: (("2".toList) ++ '.' ::
        ("3".toList))) =
      some ⟨⟨digitsVal ("1".toList), digitsVal ("2".toList),
        digitsVal ("3".toList)⟩, none, none⟩ ∧
    Version.parse (("1".toList) ++ '.' :: (('+' :: ("2".toList)) ++ '.' ::
        ("3".toList))) =
      some ⟨⟨digitsVal ("1".toList), digitsVal ("2".toList),
        digitsVal ("3".toList)⟩, none, none⟩ ∧
    Version.parse (("-2".toList) ++ '.' :: ("9".toList)) = none ∧
    Version.parse (("1".toList) ++ '.' :: (("-2".toList) ++ '.' ::
        ("9".toList))) = none ∧
    Version.parse (("1".toList) ++ '.' :: (("2".toList) ++ '.' ::
      (("3".toList) ++ '-' :: (("rc".toList) ++ '.' ::
        ("4-5".toList))))) = none ∧
    Version.parse (("1".toList) ++ '.' :: (("2".toList) ++ '.' ::
      (("3".toList) ++ '-' :: (("rc".toList) ++ '.' ::
        (("7".toList) ++ '.' :: ("8".toList)))))) = none ∧
    Version.parse (("1".toList) ++ '.' :: (("2".toList) ++ '.' ::
      (("3".toList) ++ '-' :: (("rc".toList) ++ '.' ::
        ('+' :: ("9".toList)))))) = none ∧
    Version.parse (("1".toList) ++ '.' :: (("2".toList) ++ '.' ::
      (("7".toList) ++ '.' :: ("8".toList)))) = none ∧
    Version.parse (("1".toList) ++ '.' :: (("2".toList) ++ '.' ::
      ('+' :: ("8".toList)))) = none) :=
  ⟨by decide, by decide, by decide, by decide, by decide, by decide,
    by decide, by decide, by decide, by decide, by decide,
    Version.parse_signed_numerics ("1".toList) ("2".toList) ("3".toList)
      ("rc".toList) ("-2".toList) ("4-5".toList) ("7".toList) ("8".toList)
      ("9".toList) (by decide) (by decide) (by decide) (by decide) (by decide)
      (by decide) (by decide) (by decide) (by decide) (by decide) (by decide)⟩

/-! ### `CrateId::parse` -/

theorem findSome?_append_of_none {α β : Type} (f : α → Option β) (l1 l2 : List α)
    (h : ∀ x ∈ l1, f x = none) :
    List.findSome? f (l1 ++ l2) = List.findSome? f l2 := by
  induction l1 with
  | nil => rfl
  | cons a l1 ih =>
    rw [List.cons_append, List.findSome?_cons, h a (List.mem_cons_self a l1)]
    exact ih fun x hx => h x (List.mem_cons_of_mem a hx)

/-- C8 (amended): when the leading character is a hyphen whose suffix parses
as a version and no later hyphen position yields a parseable version,
`CrateId::parse` returns `some` with the *empty* name (Rust's
`name.get(..0)` succeeds with `""`) rather than rejecting the input. -/
theorem CrateId.parse_empty_name (rest : List Char) (v : Version)
    (h1 : Version.parse rest = some v)
    (h2 : ∀ i ∈ List.range ('-' :: rest).length, 0 < i →
      ('-' :: rest).get? i = some '-' →
      Version.parse (('-' :: rest).drop (i + 1)) = none) :
    CrateId.parse ('-' :: rest) = some ⟨[], v⟩ := by
  unfold CrateId.parse
  have hlen : ('-' :: rest).length = rest.length + 1 := rfl
  rw [hlen, List.range_succ_eq_map, List.filter_cons]
  rw [if_pos (by rfl : decide ((('-' :: rest) : List Char).get? 0 = some '-') = true)]
  rw [List.reverse_cons]
  rw [findSome?_append_of_none _ _ _ ?hnone]
  case hnone =>
    intro x hx
    rw [List.mem_reverse] at hx
    obtain ⟨hmem, hprop⟩ := List.mem_filter.mp hx
    obtain ⟨i, hi, rfl⟩ := List.mem_map.mp hmem
    have hget : (('-' :: rest) : List Char).get? (Nat.succ i) = some '-' :=
      of_decide_eq_true hprop
    have hrange : Nat.succ i ∈ List.range ('-' :: rest).length := by
      rw [hlen, List.mem_range]
      exact Nat.succ_lt_succ (List.mem_range.mp hi)
    rw [h2 (Nat.succ i) hrange (Nat.succ_pos i) hget]
    rfl
  rw [List.findSome?_cons]
  have hdrop : (('-' :: rest) : List Char).drop (0 + 1) = rest := rfl
  rw [hdrop, h1]
  rfl

/-- C8 counterexample: `CrateId::parse "-1.2.3"` succeeds with the empty
name, contradicting the claim that an empty name portion makes it return
`none`. -/
theorem CrateId.parse_empty_name_cex :
    CrateId.parse ("-1.2.3".toList) =
      some ⟨[], ⟨⟨1, 2, 3⟩, none, none⟩⟩ := by decide

/-- Witness for C8 at `"-1.2.3"`. -/
theorem CrateId.parse_empty_name_check :
    Version.parse ("1.2.3".toList) = some ⟨⟨1, 2, 3⟩, none, none⟩ ∧
    (∀ i ∈ List.range ('-' :: ("1.2.3".toList)).length, 0 < i →
      ('-' :: ("1.2.3".toList)).get? i = some '-' →
      Version.parse (('-' :: ("1.2.3".toList)).drop (i + 1)) = none) ∧
    CrateId.parse ('-' :: ("1.2.3".toList)) =
      some ⟨[], ⟨⟨1, 2, 3⟩, none, none⟩⟩ :=
  ⟨by decide, by decide,
    CrateId.parse_empty_name ("1.2.3".toList) ⟨⟨1, 2, 3⟩, none, none⟩
      (by decide) (by decide)⟩
